import Mathlib

/-!
Shallow embedding of `check_tcf.py`, a polling registration-status monitor.

The markup tokenizer (Python's `html.parser.HTMLParser`) is external to the
program; it delivers a stream of start-tag, end-tag and text events to the
`SessionParser` callbacks.  We embed a markup document as the list of events
the tokenizer produces, and translate the program's own logic — the
`SessionParser` callbacks, `get_text`, `extract_status`, `notify` and
`main` — directly from the source.  Network fetching and state loading are
modelled as explicit inputs (a map from URL to delivered event stream, and
the previously stored name-to-snapshot association).
-/

namespace CheckTcf

/-- Python's `\s` / `str.split()` whitespace set, restricted to ASCII
(space, tab, newline, carriage return, vertical tab, form feed). -/
def pyWs (c : Char) : Bool :=
  c == ' ' || c == '\t' || c == '\n' || c == '\r' || c == '\x0b' || c == '\x0c'

/-- Model of Python `str.lower()` (ASCII case folding). -/
def pyLower (s : String) : String :=
  ⟨s.data.map Char.toLower⟩

/-- Model of Python `str.split()` (no separator argument) on a character
list: maximal runs of non-whitespace characters, whitespace discarded.
`cur` holds the reversed current word. -/
def wordsAux (cur : List Char) : List Char → List (List Char)
  | [] => if cur.isEmpty then [] else [cur.reverse]
  | c :: cs =>
    if pyWs c then
      if cur.isEmpty then wordsAux [] cs else cur.reverse :: wordsAux [] cs
    else wordsAux (c :: cur) cs

/-- Model of Python `s.split()`. -/
def pyWords (s : String) : List String :=
  (wordsAux [] s.data).map String.mk

/-- Model of Python `" ".join(s.split())` as used in `SessionParser._flush`:
split on whitespace runs, re-join with single spaces. -/
def normalizeWs (s : String) : String :=
  String.intercalate (" ") (pyWords s)

/-- Model of Python's substring test `needle in hay`. -/
def containsStr (hay needle : String) : Bool :=
  decide (needle.data <:+: hay.data)

/-- The `NOISE` list: lines containing these substrings (lowercased) are
filtered out. -/
def NOISE : List String :=
  ["please check regularly", "register for the", "register for tef",
   "if no dates are available"]

/-- One event delivered by the HTML tokenizer to the `SessionParser`
callbacks: a start tag, an end tag, or character data. -/
inductive HtmlEvent where
  | startTag (tag : String)
  | endTag (tag : String)
  | dataText (s : String)
deriving DecidableEq

/-- The mutable state of `SessionParser`: accumulated lines, the current
line buffer, and the (unused) `_in_strong` flag. -/
structure PState where
  lines : List String
  currentLine : String
  inStrong : Bool
deriving DecidableEq

/-- `SessionParser.__init__`. -/
def initPState : PState :=
  { lines := [], currentLine := "", inStrong := false }

/-- `SessionParser._flush`: normalize the current line buffer; append it to
`lines` when non-empty; clear the buffer. -/
def pFlush (st : PState) : PState :=
  let text := normalizeWs st.currentLine
  { st with
    lines := if text ≠ "" then st.lines ++ [text] else st.lines
    currentLine := "" }

/-- The line-breaking tags of `handle_starttag`. -/
def lineBreakTags : List String := ["p", "br", "h1", "h2", "h3", "tr", "td"]

/-- `SessionParser.handle_starttag`. -/
def handleStart (st : PState) (tag : String) : PState :=
  if tag ∈ lineBreakTags then pFlush st
  else if tag = "hr" then
    let st' := pFlush st
    { st' with lines := st'.lines ++ ["---"] }
  else if tag = "strong" then { st with inStrong := true }
  else st

/-- `SessionParser.handle_endtag`. -/
def handleEnd (st : PState) (tag : String) : PState :=
  if tag ∈ ["h1", "h2", "h3"] then pFlush st
  else if tag = "strong" then { st with inStrong := false }
  else st

/-- `SessionParser.handle_data`. -/
def handleData (st : PState) (s : String) : PState :=
  { st with currentLine := st.currentLine ++ s }

/-- Dispatch one tokenizer event to the corresponding callback. -/
def stepEvent (st : PState) : HtmlEvent → PState
  | .startTag t => handleStart st t
  | .endTag t => handleEnd st t
  | .dataText s => handleData st s

/-- `HTMLParser.feed`: run all events through the callbacks. -/
def feed (evs : List HtmlEvent) : PState :=
  evs.foldl stepEvent initPState

/-- One keyword alternative of the regex: the literal `kw` followed by
`\s*` and then a colon (e.g. `session\s*:`). -/
def kwColon (kw : String) (cs : List Char) : Bool :=
  kw.data.isPrefixOf cs &&
    ((cs.drop kw.length).dropWhile pyWs).head? == some ':'

/-- Whether the regex
`(next session\s*:|session\s*:|status\s*:|registration starts)` matches at
the start of `cs`. -/
def matchAlt (cs : List Char) : Bool :=
  kwColon ("next session") cs || kwColon ("session") cs || kwColon ("status") cs ||
    "registration starts".data.isPrefixOf cs

/-- `pattern.search` with `re.IGNORECASE`: the regex matches at some
position of the (case-folded) string. -/
def pattSearch (s : String) : Bool :=
  (s.data.map Char.toLower).tails.any matchAlt

/-- The body of the `for line in self.lines` loop of
`SessionParser.get_text`: which lines are kept in `result`, and as what.
`none` means the line is dropped. -/
def lineKeep (line : String) : Option String :=
  let low := pyLower line
  if line = "---" then some line
  else if pattSearch low then
    if low = "next sessions" then some ("---")
    else if NOISE.any (fun n => containsStr low n) then none
    else some line
  else none

/-- One step of the `for line in result` clean-up loop of `get_text`:
skip a separator when nothing has been kept yet or the last kept line is
already a separator. -/
def cleanStep (acc : List String) (line : String) : List String :=
  if line = "---" ∧ (acc = [] ∨ acc.getLast? = some ("---")) then acc
  else acc ++ [line]

/-- The `while cleaned and cleaned[-1] == "---": cleaned.pop()` loop:
remove trailing separators. -/
def dropTrailSeps (l : List String) : List String :=
  (l.reverse.dropWhile (· == "---")).reverse

/-- The list of lines `get_text` joins: flush, keyword/noise filtering,
separator clean-up. -/
def getTextLines (st : PState) : List String :=
  let result := ((pFlush st).lines).filterMap lineKeep
  dropTrailSeps (result.foldl cleanStep [])

/-- `SessionParser.get_text`. -/
def getText (st : PState) : String :=
  String.intercalate ("\n") (getTextLines st)

/-- `extract_status`: feed the markup events to a fresh parser and return
`get_text`. -/
def extract_status (evs : List HtmlEvent) : String :=
  getText (feed evs)

/-- The lines of an extracted snapshot, as obtained by splitting the
returned string on newlines. -/
def statusLines (evs : List HtmlEvent) : List String :=
  (extract_status evs).split (· == '\n')

/-- The monitored pages: name paired with URL. -/
def PAGES : List (String × String) :=
  [("TCF", "https://www.afvictoria.ca/exams/tcf/"),
   ("TEF", "https://www.afvictoria.ca/exams/tef/")]

/-- The title constructed by `notify`. -/
def notifyTitle (name : String) : String :=
  name ++ " Registration Status Changed"

/-- The body constructed by `notify`: the new status, with the previous
status appended only when `old` is truthy (a non-empty string). -/
def notifyBody (old new : String) : String :=
  let body := "New status:\n" ++ new
  if old ≠ "" then body ++ "\n\nPrevious status:\n" ++ old else body

/-- One recorded `notify(name, old, new)` call. -/
structure Notification where
  name : String
  old : String
  new : String
deriving DecidableEq

/-- The classification `main` prints for one page. -/
inductive PageClass where
  | baseline
  | changed
  | unchanged
deriving DecidableEq

/-- Python dict assignment `d[k] = v`: overwrite an existing key in place,
otherwise append the binding. -/
def dictInsert (d : List (String × String)) (k v : String) :
    List (String × String) :=
  if d.any (fun kv => kv.1 == k) then
    d.map (fun kv => if kv.1 == k then (k, v) else kv)
  else d ++ [(k, v)]

/-- The observable outcome of a run of `main`: the process exit code, the
`notify` calls issued in order, the per-page classifications printed, and
the state passed to `save_state` (`none` when `save_state` is never
reached). -/
structure RunResult where
  exitCode : Nat
  notes : List Notification
  classes : List (String × PageClass)
  saved : Option (List (String × String))
deriving DecidableEq

/-- The `for name, url in PAGES.items()` loop of `main`, with the markup
obtained for each URL given by `fetched` and the previously stored state
by `prev`.  An empty extraction exits immediately with code 1 before
`save_state`; otherwise the page is classified and the loop continues,
saving the accumulated state at the end. -/
def runPages (fetched : String → List HtmlEvent) (prev : List (String × String)) :
    List (String × String) → List (String × String) → List Notification →
    List (String × PageClass) → RunResult
  | [], curState, notes, classes =>
    { exitCode := 0, notes := notes, classes := classes, saved := some curState }
  | (name, url) :: rest, curState, notes, classes =>
    let current := extract_status (fetched url)
    if current = "" then
      { exitCode := 1, notes := notes, classes := classes, saved := none }
    else
      let curState' := dictInsert curState name current
      match List.lookup name prev with
      | none =>
        runPages fetched prev rest curState' notes
          (classes ++ [(name, PageClass.baseline)])
      | some p =>
        if current ≠ p then
          runPages fetched prev rest curState'
            (notes ++ [{ name := name, old := p, new := current }])
            (classes ++ [(name, PageClass.changed)])
        else
          runPages fetched prev rest curState' notes
            (classes ++ [(name, PageClass.unchanged)])

/-- A run of `main` over an arbitrary page table. -/
def runMain (pages : List (String × String))
    (fetched : String → List HtmlEvent) (prev : List (String × String)) :
    RunResult :=
  runPages fetched prev pages [] [] []

/-- `main`, over the concrete `PAGES` table. -/
def mainRun (fetched : String → List HtmlEvent)
    (prev : List (String × String)) : RunResult :=
  runMain PAGES fetched prev

/-- The snapshot extracted for one page of the table. -/
def pageCur (fetched : String → List HtmlEvent) (pg : String × String) :
    String :=
  extract_status (fetched pg.2)

/-- The `notify` calls a fully processed page contributes. -/
def expNotes (fetched : String → List HtmlEvent)
    (prev : List (String × String)) (pg : String × String) :
    List Notification :=
  match List.lookup pg.1 prev with
  | none => []
  | some p =>
    if pageCur fetched pg ≠ p then
      [{ name := pg.1, old := p, new := pageCur fetched pg }]
    else []

/-- The classification a fully processed page receives. -/
def expClass (fetched : String → List HtmlEvent)
    (prev : List (String × String)) (pg : String × String) : PageClass :=
  match List.lookup pg.1 prev with
  | none => PageClass.baseline
  | some p => if pageCur fetched pg ≠ p then PageClass.changed
              else PageClass.unchanged

/-- No character of `s` is a newline. -/
def NoNlStr (s : String) : Prop :=
  ∀ c ∈ s.data, (c == '\n') = false

/-- Every accumulated line of the parser state is newline-free. -/
def LinesOK (st : PState) : Prop :=
  ∀ l ∈ st.lines, NoNlStr l

/-- Two adjacent output lines are never both the separator token. -/
def NotBothSep (a b : String) : Prop :=
  ¬(a = "---" ∧ b = "---")

/-! Helper lemmas about strings, lists and the parser state. -/

theorem strData_append (a b : String) : (a ++ b).data = a.data ++ b.data := by
  cases a; cases b; rfl

theorem strAppend_assoc (a b c : String) : a ++ b ++ c = a ++ (b ++ c) := by
  apply String.ext
  simp [strData_append]

theorem intercalate_go_append (s : String) :
    ∀ (as : List String) (acc₁ acc₂ : String),
      String.intercalate.go (acc₁ ++ acc₂) s as =
        acc₁ ++ String.intercalate.go acc₂ s as := by
  intro as
  induction as with
  | nil => intro acc₁ acc₂; rfl
  | cons a as ih =>
    intro acc₁ acc₂
    show String.intercalate.go (acc₁ ++ acc₂ ++ s ++ a) s as =
      acc₁ ++ String.intercalate.go (acc₂ ++ s ++ a) s as
    rw [strAppend_assoc acc₁ acc₂ s, strAppend_assoc acc₁ (acc₂ ++ s) a]
    exact ih acc₁ (acc₂ ++ s ++ a)

theorem intercalate_cons_cons (s a b : String) (l : List String) :
    String.intercalate s (a :: b :: l) = a ++ s ++ String.intercalate s (b :: l) := by
  show String.intercalate.go (a ++ s ++ b) s l = a ++ s ++ String.intercalate.go b s l
  exact intercalate_go_append s l (a ++ s) b

theorem strMk_data (s : String) : String.mk s.data = s := rfl

theorem splitOnP_intercalate_nl :
    ∀ (l : List String), l ≠ [] → (∀ w ∈ l, NoNlStr w) →
      List.splitOnP (· == '\n') (String.intercalate ("\n") l).data =
        l.map String.data := by
  intro l
  induction l with
  | nil => intro h; exact absurd rfl h
  | cons a l ih =>
    intro _ h
    cases l with
    | nil =>
      show List.splitOnP (· == '\n') a.data = [a.data]
      exact List.splitOnP_eq_single _ _ (fun x hx => by
        simp [h a (by simp) x hx])
    | cons b l' =>
      rw [intercalate_cons_cons, strData_append, strData_append]
      have hsh : a.data ++ "\n".data ++ (String.intercalate ("\n") (b :: l')).data =
          a.data ++ '\n' :: (String.intercalate ("\n") (b :: l')).data := by
        simp
      rw [hsh, List.splitOnP_first _ _ (fun x hx => by
            simp [h a (by simp) x hx]) '\n' (by simp)]
      rw [ih (by simp) (fun w hw => h w (by simp [hw]))]
      simp

theorem split_intercalate_nl (l : List String) (h0 : l ≠ [])
    (h : ∀ w ∈ l, NoNlStr w) :
    (String.intercalate ("\n") l).split (· == '\n') = l := by
  rw [String.split_of_valid, splitOnP_intercalate_nl l h0 h]
  have hmk : (String.mk ∘ String.data) = id := funext strMk_data
  rw [List.map_map, hmk, List.map_id]

theorem wordsAux_no_ws :
    ∀ (cs cur : List Char), (∀ c ∈ cur, pyWs c = false) →
      ∀ w ∈ wordsAux cur cs, ∀ c ∈ w, pyWs c = false := by
  intro cs
  induction cs with
  | nil =>
    intro cur hcur w hw c hc
    unfold wordsAux at hw
    split at hw
    · exact absurd hw (by simp)
    · simp at hw
      subst hw
      exact hcur c (by simpa using hc)
  | cons a cs ih =>
    intro cur hcur w hw c hc
    unfold wordsAux at hw
    split at hw
    · split at hw
      · exact ih [] (by simp) w hw c hc
      · rcases List.mem_cons.1 hw with h1 | h1
        · subst h1
          exact hcur c (by simpa using hc)
        · exact ih [] (by simp) w h1 c hc
    · rename_i hws
      refine ih (a :: cur) ?_ w hw c hc
      intro x hx
      rcases List.mem_cons.1 hx with h1 | h1
      · subst h1; exact Bool.not_eq_true _ ▸ by simpa using hws
      · exact hcur x h1

theorem mem_data_intercalate (s : String) :
    ∀ (l : List String) (c : Char), c ∈ (String.intercalate s l).data →
      c ∈ s.data ∨ ∃ w ∈ l, c ∈ w.data := by
  intro l
  induction l with
  | nil => intro c hc; exact absurd hc (by simp [String.intercalate])
  | cons a l ih =>
    cases l with
    | nil =>
      intro c hc
      exact Or.inr ⟨a, by simp, by simpa using hc⟩
    | cons b l' =>
      intro c hc
      rw [intercalate_cons_cons, strData_append, strData_append] at hc
      rcases List.mem_append.1 hc with h1 | h1
      · rcases List.mem_append.1 h1 with h2 | h2
        · exact Or.inr ⟨a, by simp, h2⟩
        · exact Or.inl h2
      · rcases ih c h1 with h2 | ⟨w, hw, hcw⟩
        · exact Or.inl h2
        · exact Or.inr ⟨w, by simp [hw], hcw⟩

theorem normalizeWs_no_nl (s : String) : NoNlStr (normalizeWs s) := by
  intro c hc
  rcases mem_data_intercalate (" ") (pyWords s) c hc with h1 | ⟨w, hw, hcw⟩
  · simp at h1
    subst h1
    decide
  · rcases List.mem_map.1 hw with ⟨w', hw', rfl⟩
    have hns := wordsAux_no_ws s.data [] (by simp) w' hw' c hcw
    by_cases he : c = '\n'
    · subst he; exact absurd hns (by decide)
    · simp [he]

theorem sep_no_nl : NoNlStr ("---") := by
  show ∀ c ∈ ("---" : String).data, (c == '\n') = false
  decide

theorem pFlush_ok {st : PState} (h : LinesOK st) : LinesOK (pFlush st) := by
  intro l hl
  dsimp only [pFlush] at hl
  split at hl
  · rcases List.mem_append.1 hl with h1 | h1
    · exact h l h1
    · simp at h1
      subst h1
      exact normalizeWs_no_nl _
  · exact h l hl

theorem stepEvent_ok {st : PState} (e : HtmlEvent) (h : LinesOK st) :
    LinesOK (stepEvent st e) := by
  cases e with
  | startTag t =>
    dsimp only [stepEvent, handleStart]
    split
    · exact pFlush_ok h
    · split
      · intro l hl
        rcases List.mem_append.1 hl with h1 | h1
        · exact pFlush_ok h l h1
        · simp at h1
          subst h1
          exact sep_no_nl
      · split
        · exact h
        · exact h
  | endTag t =>
    dsimp only [stepEvent, handleEnd]
    split
    · exact pFlush_ok h
    · split
      · exact h
      · exact h
  | dataText s => exact h

theorem feed_ok (evs : List HtmlEvent) : LinesOK (feed evs) := by
  suffices hgen : ∀ (l : List HtmlEvent) (st : PState), LinesOK st →
      LinesOK (l.foldl stepEvent st) by
    exact hgen evs initPState (by intro l hl; exact absurd hl (by simp [initPState]))
  intro l
  induction l with
  | nil => intro st h; exact h
  | cons e l ih => intro st h; exact ih _ (stepEvent_ok e h)

theorem lineKeep_cases {a l : String} (h : lineKeep a = some l) :
    l = "---" ∨ l = a := by
  dsimp only [lineKeep] at h
  split at h
  · exact Or.inr (Option.some_injective _ h).symm
  · split at h
    · split at h
      · exact Or.inl (Option.some_injective _ h).symm
      · split at h
        · exact absurd h (by simp)
        · exact Or.inr (Option.some_injective _ h).symm
    · exact absurd h (by simp)

theorem lineKeep_no_noise {a l : String} (h : lineKeep a = some l) :
    NOISE.any (fun n => containsStr (pyLower l) n) = false := by
  dsimp only [lineKeep] at h
  split at h
  · rename_i ha
    cases h
    subst ha
    decide
  · split at h
    · split at h
      · cases h
        decide
      · split at h
        · exact absurd h (by simp)
        · rename_i hnoise
          cases h
          simpa using hnoise
    · exact absurd h (by simp)

theorem mem_clean_fold :
    ∀ (l acc : List String) (x : String), x ∈ l.foldl cleanStep acc →
      x ∈ acc ∨ x ∈ l := by
  intro l
  induction l with
  | nil => intro acc x h; exact Or.inl h
  | cons a l ih =>
    intro acc x h
    rcases ih (cleanStep acc a) x h with h1 | h1
    · dsimp only [cleanStep] at h1
      split at h1
      · exact Or.inl h1
      · rcases List.mem_append.1 h1 with h2 | h2
        · exact Or.inl h2
        · simp at h2
          subst h2
          exact Or.inr (by simp)
    · exact Or.inr (by simp [h1])

theorem clean_fold_inv :
    ∀ (l acc : List String), acc.head? ≠ some ("---") →
      List.Chain' NotBothSep acc →
      (l.foldl cleanStep acc).head? ≠ some ("---") ∧
        List.Chain' NotBothSep (l.foldl cleanStep acc) := by
  intro l
  induction l with
  | nil => intro acc h1 h2; exact ⟨h1, h2⟩
  | cons a l ih =>
    intro acc h1 h2
    rw [List.foldl_cons]
    rcases em (a = "---" ∧ (acc = [] ∨ acc.getLast? = some ("---"))) with hc | hc
    · have hstep : cleanStep acc a = acc := by simp [cleanStep, hc]
      rw [hstep]
      exact ih acc h1 h2
    · have hstep : cleanStep acc a = acc ++ [a] := by simp [cleanStep, hc]
      rw [hstep]
      refine ih (acc ++ [a]) ?_ ?_
      · cases acc with
        | nil =>
          have ha : a ≠ "---" := by
            intro he
            exact hc ⟨he, Or.inl rfl⟩
          simpa using ha
        | cons y ys => simpa using h1
      · rw [List.chain'_append]
        refine ⟨h2, List.chain'_singleton a, ?_⟩
        intro x hx y hy
        simp at hy
        subst hy
        intro ⟨hx1, hy1⟩
        refine hc ⟨hy1, Or.inr ?_⟩
        rw [hx1] at hx
        exact Option.mem_def.1 hx

theorem head_dropWhile_ne_sep :
    ∀ (l : List String), (l.dropWhile (· == "---")).head? ≠ some ("---") := by
  intro l
  induction l with
  | nil => simp
  | cons a l ih =>
    rw [List.dropWhile_cons]
    split
    · exact ih
    · rename_i hne
      simp at hne ⊢
      exact fun he => hne (by rw [he])

theorem dropTrailSeps_pre (l : List String) : dropTrailSeps l <+: l := by
  have hsuf : l.reverse.dropWhile (· == "---") <:+ l.reverse :=
    List.dropWhile_suffix _
  have := List.reverse_prefix.2 hsuf
  simpa [dropTrailSeps] using this

theorem dropTrailSeps_getLast (l : List String) :
    (dropTrailSeps l).getLast? ≠ some ("---") := by
  dsimp only [dropTrailSeps]
  rw [List.getLast?_reverse]
  exact head_dropWhile_ne_sep _

theorem prefix_head_ne {l₁ l : List String} (h : l₁ <+: l)
    (hl : l.head? ≠ some ("---")) : l₁.head? ≠ some ("---") := by
  rcases h with ⟨t, rfl⟩
  cases l₁ with
  | nil => simp
  | cons a l₂ => simpa using hl

theorem mem_getTextLines {st : PState} {l : String} (h : l ∈ getTextLines st) :
    ∃ a ∈ (pFlush st).lines, lineKeep a = some l := by
  dsimp only [getTextLines] at h
  have h' := (dropTrailSeps_pre _).subset h
  rcases mem_clean_fold _ [] l h' with h1 | h1
  · exact absurd h1 (by simp)
  · exact List.mem_filterMap.1 h1

theorem getTextLines_no_nl (evs : List HtmlEvent) :
    ∀ l ∈ getTextLines (feed evs), NoNlStr l := by
  intro l hl
  rcases mem_getTextLines hl with ⟨a, ha, hka⟩
  rcases lineKeep_cases hka with rfl | rfl
  · exact sep_no_nl
  · exact pFlush_ok (feed_ok evs) _ ha

theorem getTextLines_props (st : PState) :
    (getTextLines st).head? ≠ some ("---") ∧
      List.Chain' NotBothSep (getTextLines st) ∧
      (getTextLines st).getLast? ≠ some ("---") := by
  have hinv := clean_fold_inv (((pFlush st).lines).filterMap lineKeep) []
    (by simp) (by simp)
  have hpre := dropTrailSeps_pre
    ((((pFlush st).lines).filterMap lineKeep).foldl cleanStep [])
  exact ⟨prefix_head_ne hpre hinv.1, List.Chain'.prefix hinv.2 hpre,
    dropTrailSeps_getLast _⟩

theorem statusLines_eq (evs : List HtmlEvent) :
    statusLines evs =
      if getTextLines (feed evs) = [] then [""] else getTextLines (feed evs) := by
  dsimp only [statusLines, extract_status, getText]
  split
  · rename_i he
    rw [he, String.split_of_valid]
    rfl
  · rename_i he
    exact split_intercalate_nl _ he (getTextLines_no_nl evs)

/-! Claims about the extractor. -/

/--
Claim C2: For the markup consisting of a heading with text "Next sessions", a
paragraph "Session: March 2025", an `<hr>` element, and a paragraph
"Status: Full", `extract_status` returns exactly the string
`"Session: March 2025\n---\nStatus: Full"`; the heading itself does not
appear in the output.
-/
theorem c2_example_extraction :
    extract_status
      [HtmlEvent.startTag ("h2"), HtmlEvent.dataText ("Next sessions"),
       HtmlEvent.endTag ("h2"),
       HtmlEvent.startTag ("p"), HtmlEvent.dataText ("Session: March 2025"),
       HtmlEvent.endTag ("p"),
       HtmlEvent.startTag ("hr"),
       HtmlEvent.startTag ("p"), HtmlEvent.dataText ("Status: Full"),
       HtmlEvent.endTag ("p")] = "Session: March 2025\n---\nStatus: Full" := by
  decide

/--
Claim C3: For every markup input, the string returned by `extract_status`,
split on newlines, has no two consecutive `"---"` separator lines, and
neither its first nor its last line is a `"---"` separator.
-/
theorem c3_separators_normalized (evs : List HtmlEvent) :
    List.Chain' NotBothSep (statusLines evs) ∧
      (statusLines evs).head? ≠ some ("---") ∧
      (statusLines evs).getLast? ≠ some ("---") := by
  rw [statusLines_eq]
  split
  · exact ⟨List.chain'_singleton _, by decide, by decide⟩
  · obtain ⟨h1, h2, h3⟩ := getTextLines_props (feed evs)
    exact ⟨h2, h1, h3⟩

/--
Claim C6: Extraction is a pure function of the markup input: any two
invocations of `extract_status` on identical markup return identical
outputs, with no environmental dependence.
-/
theorem c6_deterministic (m₁ m₂ : List HtmlEvent) (h : m₁ = m₂) :
    extract_status m₁ = extract_status m₂ := by
  rw [h]

theorem c6_witness :
    ([HtmlEvent.dataText ("Status: Full")] : List HtmlEvent) =
        [HtmlEvent.dataText ("Status: Full")] ∧
      extract_status [HtmlEvent.dataText ("Status: Full")] =
        extract_status [HtmlEvent.dataText ("Status: Full")] :=
  ⟨rfl, c6_deterministic _ _ rfl⟩

/--
Claim C7: For every markup input, a line whose lowercased text contains one
of the `NOISE` phrases does not occur among the output lines of
`extract_status`, regardless of letter case.
-/
theorem c7_noise_lines_absent (evs : List HtmlEvent) (line : String)
    (h : NOISE.any (fun n => containsStr (pyLower line) n) = true) :
    line ∉ statusLines evs := by
  rw [statusLines_eq]
  split
  · intro hmem
    simp at hmem
    subst hmem
    exact absurd h (by decide)
  · intro hmem
    rcases mem_getTextLines hmem with ⟨a, _, hka⟩
    rw [lineKeep_no_noise hka] at h
    exact Bool.false_ne_true h

theorem c7_witness :
    NOISE.any
        (fun n => containsStr (pyLower ("Please CHECK regularly for updates.")) n)
        = true ∧
      ("Please CHECK regularly for updates." : String) ∉ statusLines [] :=
  ⟨by decide, c7_noise_lines_absent [] ("Please CHECK regularly for updates.")
    (by decide)⟩

/--
Claim C8: A text line whose normalized text is exactly "Next sessions" (in
any letter case) never matches the keyword pattern — the regex requires a
colon after "session"/"status" or the phrase "registration starts" — so
the branch of `get_text` converting it to a `"---"` separator is
unreachable, and the line is simply dropped.
-/
theorem c8_next_sessions_dropped (line : String)
    (h : pyLower line = "next sessions") :
    pattSearch (pyLower line) = false ∧ lineKeep line = none := by
  have hpatt : pattSearch (pyLower line) = false := by
    rw [h]
    decide
  refine ⟨hpatt, ?_⟩
  have hne : line ≠ "---" := by
    intro he
    rw [he] at h
    exact absurd h (by decide)
  dsimp only [lineKeep]
  rw [if_neg hne, hpatt]
  simp

theorem p_text_p_eq_hr (s : String) (h : normalizeWs s = "---") (st : PState) :
    List.foldl stepEvent st
        [HtmlEvent.startTag ("p"), HtmlEvent.dataText s, HtmlEvent.startTag ("p")] =
      List.foldl stepEvent st [HtmlEvent.startTag ("hr")] := by
  obtain ⟨lines, cur, strong⟩ := st
  have hes : ("" : String) ++ s = s := String.ext (by simp [strData_append])
  show pFlush { pFlush ⟨lines, cur, strong⟩ with currentLine := ("" : String) ++ s } =
      { pFlush ⟨lines, cur, strong⟩ with
          lines := (pFlush ⟨lines, cur, strong⟩).lines ++ ["---"] }
  rw [hes]
  dsimp only [pFlush]
  rw [if_pos (show normalizeWs s ≠ "" by rw [h]; decide), h]

/--
Claim C9: A content line whose whitespace-normalized text is exactly `"---"`
(coming from document text rather than an `<hr>`) is treated as a
structural separator: it is retained by `lineKeep` without matching any
keyword, and the run behaves exactly as if an `<hr>` had produced the
separator, so the output is indistinguishable.
-/
theorem c9_text_separator (s : String) (h : normalizeWs s = "---") :
    (∀ pre post : List HtmlEvent,
        extract_status (pre ++ ([HtmlEvent.startTag ("p"), HtmlEvent.dataText s,
            HtmlEvent.startTag ("p")] ++ post)) =
          extract_status (pre ++ ([HtmlEvent.startTag ("hr")] ++ post))) ∧
      lineKeep ("---") = some ("---") ∧
      pattSearch (pyLower ("---")) = false := by
  refine ⟨?_, by decide, by decide⟩
  intro pre post
  dsimp only [extract_status, feed]
  rw [List.foldl_append, List.foldl_append, List.foldl_append, List.foldl_append,
    p_text_p_eq_hr s h]

theorem c9_witness :
    normalizeWs (" --- ") = "---" ∧
      extract_status ([HtmlEvent.startTag ("p"), HtmlEvent.dataText ("Status: Open")] ++
          ([HtmlEvent.startTag ("p"), HtmlEvent.dataText (" --- "),
            HtmlEvent.startTag ("p")] ++ [])) =
        extract_status ([HtmlEvent.startTag ("p"), HtmlEvent.dataText ("Status: Open")] ++
          ([HtmlEvent.startTag ("hr")] ++ [])) :=
  ⟨by decide, (c9_text_separator (" --- ") (by decide)).1 _ _⟩

theorem c8_witness :
    pyLower ("NEXT Sessions") = "next sessions" ∧
      (pattSearch (pyLower ("NEXT Sessions")) = false ∧
        lineKeep ("NEXT Sessions") = none) :=
  ⟨by decide, c8_next_sessions_dropped ("NEXT Sessions") (by decide)⟩

theorem dictInsert_fresh {d : List (String × String)} {k : String}
    (h : k ∉ d.map Prod.fst) (v : String) : dictInsert d k v = d ++ [(k, v)] := by
  dsimp only [dictInsert]
  rw [if_neg]
  intro hc
  rcases List.any_eq_true.1 hc with ⟨kv, hkv, he⟩
  exact h (List.mem_map.2 ⟨kv, hkv, beq_iff_eq.1 he⟩)

theorem expNotes_name (fetched : String → List HtmlEvent)
    (prev : List (String × String)) (pg : String × String) :
    ∀ nt ∈ expNotes fetched prev pg, nt.name = pg.1 := by
  intro nt hnt
  dsimp only [expNotes] at hnt
  split at hnt
  · exact absurd hnt (by simp)
  · split at hnt
    · simp at hnt
      rw [hnt]
    · exact absurd hnt (by simp)

theorem runPages_ok (fetched : String → List HtmlEvent)
    (prev : List (String × String)) :
    ∀ (pages cs : List (String × String)) (ns : List Notification)
      (cls : List (String × PageClass)),
      (∀ pg ∈ pages, pageCur fetched pg ≠ "") →
      (∀ pg ∈ pages, pg.1 ∉ cs.map Prod.fst) →
      (pages.map Prod.fst).Nodup →
      runPages fetched prev pages cs ns cls =
        { exitCode := 0,
          notes := ns ++ (pages.map (expNotes fetched prev)).flatten,
          classes := cls ++ pages.map (fun pg => (pg.1, expClass fetched prev pg)),
          saved := some (cs ++ pages.map (fun pg => (pg.1, pageCur fetched pg))) } := by
  intro pages
  induction pages with
  | nil => intro cs ns cls _ _ _; simp [runPages]
  | cons pg rest ih =>
    obtain ⟨name, url⟩ := pg
    intro cs ns cls h1 h2 h3
    have hcur : ¬(extract_status (fetched url) = "") := h1 (name, url) (by simp)
    have hnodup_rest : (rest.map Prod.fst).Nodup := (List.nodup_cons.1 h3).2
    have hname_not : name ∉ rest.map Prod.fst := (List.nodup_cons.1 h3).1
    have h2' : ∀ pg ∈ rest,
        pg.1 ∉ (cs ++ [(name, extract_status (fetched url))]).map Prod.fst := by
      intro q hq
      rw [List.map_append]
      rintro hmem
      rcases List.mem_append.1 hmem with hc | hc
      · exact h2 q (by simp [hq]) hc
      · simp at hc
        exact hname_not (List.mem_map.2 ⟨q, hq, hc⟩)
    dsimp only [runPages]
    rw [if_neg hcur, dictInsert_fresh (h2 (name, url) (by simp)) _]
    cases hl : List.lookup name prev with
    | none =>
      rw [ih _ _ _ (fun q hq => h1 q (by simp [hq])) h2' hnodup_rest]
      simp [expNotes, expClass, pageCur, hl]
    | some p =>
      dsimp only
      by_cases hne : extract_status (fetched url) ≠ p
      · rw [if_pos hne,
          ih _ _ _ (fun q hq => h1 q (by simp [hq])) h2' hnodup_rest]
        simp only [RunResult.mk.injEq, List.map_cons, List.flatten_cons]
        refine ⟨trivial, ?_, ?_, ?_⟩
        · rw [List.append_assoc]
          simp [expNotes, pageCur, hl, hne]
        · rw [List.append_assoc]
          simp [expClass, pageCur, hl, hne]
        · rw [List.append_assoc]
          simp [pageCur]
      · rw [if_neg hne,
          ih _ _ _ (fun q hq => h1 q (by simp [hq])) h2' hnodup_rest]
        simp only [RunResult.mk.injEq, List.map_cons, List.flatten_cons]
        refine ⟨trivial, ?_, ?_, ?_⟩
        · simp [expNotes, pageCur, hl, hne]
        · rw [List.append_assoc]
          simp [expClass, pageCur, hl, hne]
        · rw [List.append_assoc]
          simp [pageCur]

theorem exists_empty_cons_iff (fetched : String → List HtmlEvent)
    {name url : String} (hcur : pageCur fetched (name, url) ≠ "")
    (rest : List (String × String)) :
    (∃ pg ∈ rest, pageCur fetched pg = "") ↔
      (∃ pg ∈ (name, url) :: rest, pageCur fetched pg = "") := by
  constructor
  · rintro ⟨q, hq, he⟩
    exact ⟨q, by simp [hq], he⟩
  · rintro ⟨q, hq, he⟩
    rcases List.mem_cons.1 hq with rfl | hq'
    · exact absurd he hcur
    · exact ⟨q, hq', he⟩

theorem runPages_exit (fetched : String → List HtmlEvent)
    (prev : List (String × String)) :
    ∀ (pages cs : List (String × String)) (ns : List Notification)
      (cls : List (String × PageClass)),
      ((runPages fetched prev pages cs ns cls).exitCode ≠ 0 ↔
        ∃ pg ∈ pages, pageCur fetched pg = "") ∧
      ((runPages fetched prev pages cs ns cls).saved = none ↔
        (runPages fetched prev pages cs ns cls).exitCode ≠ 0) := by
  intro pages
  induction pages with
  | nil =>
    intro cs ns cls
    constructor
    · simp [runPages]
    · simp [runPages]
  | cons pg rest ih =>
    obtain ⟨name, url⟩ := pg
    intro cs ns cls
    dsimp only [runPages]
    by_cases hcur : extract_status (fetched url) = ""
    · rw [if_pos hcur]
      constructor
      · constructor
        · intro _
          exact ⟨(name, url), by simp, hcur⟩
        · intro _
          exact Nat.one_ne_zero
      · simp
    · rw [if_neg hcur]
      cases hl : List.lookup name prev with
      | none =>
        refine ⟨?_, (ih _ _ _).2⟩
        rw [(ih _ _ _).1]
        exact exists_empty_cons_iff fetched hcur rest
      | some p =>
        dsimp only
        by_cases hne : extract_status (fetched url) ≠ p
        · rw [if_pos hne]
          refine ⟨?_, (ih _ _ _).2⟩
          rw [(ih _ _ _).1]
          exact exists_empty_cons_iff fetched hcur rest
        · rw [if_neg hne]
          refine ⟨?_, (ih _ _ _).2⟩
          rw [(ih _ _ _).1]
          exact exists_empty_cons_iff fetched hcur rest

/--
Claim C4: the process exits with a non-zero status if and only if
`extract_status` returns the empty string for some monitored page, and in
that case the run terminates before `save_state` is called, so no stored
state is updated.
-/
theorem c4_exit_iff_empty_extraction (pages : List (String × String))
    (fetched : String → List HtmlEvent) (prev : List (String × String)) :
    ((runMain pages fetched prev).exitCode ≠ 0 ↔
      ∃ pg ∈ pages, extract_status (fetched pg.2) = "") ∧
    ((runMain pages fetched prev).exitCode ≠ 0 →
      (runMain pages fetched prev).saved = none) := by
  obtain ⟨h1, h2⟩ := runPages_exit fetched prev pages [] [] []
  exact ⟨h1, fun h => h2.2 h⟩

/--
Claim C5: after a run in which every monitored page yields a non-empty
extraction, `save_state` receives the mapping from each page name to its
just-extracted snapshot, unconditionally — even when nothing changed.
-/
theorem c5_state_saved_unconditionally (pages : List (String × String))
    (fetched : String → List HtmlEvent) (prev : List (String × String))
    (h1 : ∀ pg ∈ pages, extract_status (fetched pg.2) ≠ "")
    (h2 : (pages.map Prod.fst).Nodup) :
    (runMain pages fetched prev).saved =
      some (pages.map (fun pg => (pg.1, extract_status (fetched pg.2)))) := by
  rw [runMain, runPages_ok fetched prev pages [] [] [] h1 (by simp) h2]
  simp [pageCur]

theorem c5_witness :
    (∀ pg ∈ ([("TCF", "u")] : List (String × String)),
        extract_status ((fun _ => [HtmlEvent.dataText ("Status: Open")]) pg.2) ≠ "") ∧
      (([("TCF", "u")] : List (String × String)).map Prod.fst).Nodup ∧
      (runMain [("TCF", "u")] (fun _ => [HtmlEvent.dataText ("Status: Open")])
          []).saved =
        some (([("TCF", "u")] : List (String × String)).map (fun pg =>
          (pg.1,
            extract_status ((fun _ => [HtmlEvent.dataText ("Status: Open")]) pg.2)))) :=
  ⟨by decide, by decide,
    c5_state_saved_unconditionally [("TCF", "u")]
      (fun _ => [HtmlEvent.dataText ("Status: Open")]) [] (by decide) (by decide)⟩

theorem filter_notes_flatten (fetched : String → List HtmlEvent)
    (prev : List (String × String)) :
    ∀ (pages : List (String × String)) (name url : String),
      (pages.map Prod.fst).Nodup → (name, url) ∈ pages →
      ((pages.map (expNotes fetched prev)).flatten.filter
          (fun nt => nt.name == name)) =
        expNotes fetched prev (name, url) := by
  intro pages
  induction pages with
  | nil => intro name url _ hm; exact absurd hm (by simp)
  | cons q rest ih =>
    intro name url hnd hm
    rw [List.map_cons, List.flatten_cons, List.filter_append]
    rcases List.mem_cons.1 hm with rfl | hm'
    · have hname_not : name ∉ rest.map Prod.fst := by
        simpa using (List.nodup_cons.1 hnd).1
      have hfilter1 : (expNotes fetched prev (name, url)).filter
          (fun nt => nt.name == name) = expNotes fetched prev (name, url) :=
        List.filter_eq_self.2 (fun nt hnt => by
          rw [expNotes_name fetched prev _ nt hnt]
          simp)
      have hfilter2 : ((rest.map (expNotes fetched prev)).flatten.filter
          (fun nt => nt.name == name)) = [] := by
        rw [List.filter_eq_nil_iff]
        intro nt hnt
        rcases List.mem_flatten.1 hnt with ⟨l, hl, hntl⟩
        rcases List.mem_map.1 hl with ⟨q', hq', rfl⟩
        rw [expNotes_name fetched prev q' nt hntl]
        simp only [beq_iff_eq]
        intro he
        exact hname_not (List.mem_map.2 ⟨q', hq', he⟩)
      rw [hfilter1, hfilter2, List.append_nil]
    · have hq1 : q.1 ≠ name := by
        intro he
        exact (List.nodup_cons.1 hnd).1
          (by rw [he]; exact List.mem_map.2 ⟨(name, url), hm', rfl⟩)
      have hfilter1 : (expNotes fetched prev q).filter
          (fun nt => nt.name == name) = [] := by
        rw [List.filter_eq_nil_iff]
        intro nt hnt
        rw [expNotes_name fetched prev q nt hnt]
        simp [hq1]
      rw [hfilter1, List.nil_append,
        ih name url (List.nodup_cons.1 hnd).2 hm']

theorem classes_mem_iff (fetched : String → List HtmlEvent)
    (prev : List (String × String)) :
    ∀ (pages : List (String × String)) (name url : String) (c : PageClass),
      (pages.map Prod.fst).Nodup → (name, url) ∈ pages →
      ((name, c) ∈ pages.map (fun pg => (pg.1, expClass fetched prev pg)) ↔
        c = expClass fetched prev (name, url)) := by
  intro pages
  induction pages with
  | nil => intro name url c _ hm; exact absurd hm (by simp)
  | cons q rest ih =>
    intro name url c hnd hm
    rw [List.map_cons, List.mem_cons]
    rcases List.mem_cons.1 hm with rfl | hm'
    · have hname_not : name ∉ rest.map Prod.fst := by
        simpa using (List.nodup_cons.1 hnd).1
      constructor
      · rintro (he | hmem)
        · exact (Prod.mk.injEq _ _ _ _ ▸ he).2
        · rcases List.mem_map.1 hmem with ⟨q', hq', he⟩
          have : q'.1 = name := (Prod.mk.injEq _ _ _ _ ▸ he).1
          exact absurd (List.mem_map.2 ⟨q', hq', this⟩) hname_not
      · rintro rfl
        exact Or.inl rfl
    · have hq1 : q.1 ≠ name := by
        intro he
        exact (List.nodup_cons.1 hnd).1
          (by rw [he]; exact List.mem_map.2 ⟨(name, url), hm', rfl⟩)
      rw [ih name url c (List.nodup_cons.1 hnd).2 hm']
      constructor
      · rintro (he | hmem)
        · exact absurd (Prod.mk.injEq _ _ _ _ ▸ he).1.symm hq1
        · exact hmem
      · exact fun h => Or.inr h

theorem containsStr_intro {hay needle : String} (s t : List Char)
    (h : s ++ needle.data ++ t = hay.data) : containsStr hay needle = true := by
  dsimp only [containsStr]
  rw [decide_eq_true_eq]
  exact ⟨s, t, h⟩

theorem notifyBody_contains (old new : String) :
    containsStr (notifyBody old new) new = true ∧
      (old ≠ "" → containsStr (notifyBody old new) old = true) := by
  dsimp only [notifyBody]
  by_cases h : old = ""
  · rw [if_neg (by rw [h]; exact fun hc => hc rfl)]
    exact ⟨containsStr_intro ("New status:\n").data []
        (by simp [strData_append]),
      fun hc => absurd h hc⟩
  · rw [if_pos h]
    refine ⟨containsStr_intro ("New status:\n").data
        (("\n\nPrevious status:\n").data ++ old.data)
        (by simp [strData_append]), ?_⟩
    intro _
    exact containsStr_intro
      (("New status:\n").data ++ new.data ++ ("\n\nPrevious status:\n").data) []
      (by simp [strData_append])

/--
Claim C1: for every monitored page processed in a completed run of `main`,
`notify` is invoked if and only if a previously stored snapshot exists for
the page's name and differs from the newly extracted snapshot by exact
string inequality; when invoked it is invoked exactly once, with the new
snapshot in the body and the previous snapshot appended when it is
available (non-empty); a page with no prior snapshot is classified as
baseline, never as changed.
-/
theorem c1_notify_exactly_on_change (pages : List (String × String))
    (fetched : String → List HtmlEvent) (prev : List (String × String))
    (name url : String)
    (h1 : ∀ pg ∈ pages, extract_status (fetched pg.2) ≠ "")
    (h2 : (pages.map Prod.fst).Nodup)
    (h3 : (name, url) ∈ pages) :
    ((runMain pages fetched prev).notes.filter (fun nt => nt.name == name) =
        match List.lookup name prev with
        | some p =>
          if extract_status (fetched url) ≠ p then
            [{ name := name, old := p, new := extract_status (fetched url) }]
          else []
        | none => []) ∧
      (List.lookup name prev = none →
        (name, PageClass.baseline) ∈ (runMain pages fetched prev).classes ∧
        (name, PageClass.changed) ∉ (runMain pages fetched prev).classes) ∧
      (∀ nt ∈ (runMain pages fetched prev).notes.filter
          (fun nt => nt.name == name),
        containsStr (notifyBody nt.old nt.new) nt.new = true ∧
          (nt.old ≠ "" → containsStr (notifyBody nt.old nt.new) nt.old = true)) := by
  rw [runMain, runPages_ok fetched prev pages [] [] [] h1 (by simp) h2]
  refine ⟨?_, ?_, ?_⟩
  · simp only [List.nil_append]
    rw [filter_notes_flatten fetched prev pages name url h2 h3]
    cases hl : List.lookup name prev with
    | none => simp [expNotes, hl]
    | some p => simp [expNotes, pageCur, hl]
  · intro hnone
    constructor
    · simp only [List.nil_append]
      rw [classes_mem_iff fetched prev pages name url PageClass.baseline h2 h3]
      dsimp only [expClass]
      rw [hnone]
    · simp only [List.nil_append]
      rw [classes_mem_iff fetched prev pages name url PageClass.changed h2 h3]
      dsimp only [expClass]
      rw [hnone]
      simp
  · intro nt hnt
    simp only [List.nil_append] at hnt
    rw [filter_notes_flatten fetched prev pages name url h2 h3] at hnt
    dsimp only [expNotes] at hnt
    split at hnt
    · exact absurd hnt (by simp)
    · split at hnt
      · simp only [List.mem_singleton] at hnt
        subst hnt
        exact notifyBody_contains _ _
      · exact absurd hnt (by simp)

theorem c1_witness :
    ((∀ pg ∈ ([("TCF", "u")] : List (String × String)),
        extract_status ((fun _ => [HtmlEvent.dataText ("Status: B")]) pg.2) ≠ "") ∧
      (([("TCF", "u")] : List (String × String)).map Prod.fst).Nodup ∧
      (("TCF", "u") : String × String) ∈ ([("TCF", "u")] : List (String × String))) ∧
    (((runMain [("TCF", "u")] (fun _ => [HtmlEvent.dataText ("Status: B")])
          [("TCF", "Status: A")]).notes.filter (fun nt => nt.name == "TCF") =
        match List.lookup "TCF" [("TCF", "Status: A")] with
        | some p =>
          if extract_status ((fun _ => [HtmlEvent.dataText ("Status: B")]) "u") ≠ p
          then
            [{ name := "TCF", old := p,
               new := extract_status
                 ((fun _ => [HtmlEvent.dataText ("Status: B")]) "u") }]
          else []
        | none => []) ∧
      (List.lookup "TCF" [("TCF", "Status: A")] = none →
        ("TCF", PageClass.baseline) ∈
          (runMain [("TCF", "u")] (fun _ => [HtmlEvent.dataText ("Status: B")])
            [("TCF", "Status: A")]).classes ∧
        ("TCF", PageClass.changed) ∉
          (runMain [("TCF", "u")] (fun _ => [HtmlEvent.dataText ("Status: B")])
            [("TCF", "Status: A")]).classes) ∧
      (∀ nt ∈ (runMain [("TCF", "u")] (fun _ => [HtmlEvent.dataText ("Status: B")])
            [("TCF", "Status: A")]).notes.filter (fun nt => nt.name == "TCF"),
        containsStr (notifyBody nt.old nt.new) nt.new = true ∧
          (nt.old ≠ "" →
            containsStr (notifyBody nt.old nt.new) nt.old = true))) :=
  ⟨⟨by decide, by decide, by decide⟩,
    c1_notify_exactly_on_change [("TCF", "u")]
      (fun _ => [HtmlEvent.dataText ("Status: B")]) [("TCF", "Status: A")]
      ("TCF") ("u") (by decide) (by decide) (by decide)⟩

/--
Claim C10: if the previously stored snapshot for a page is the empty
string and the new snapshot differs, `notify` is called with the empty
previous text, and its body consists of the new status only — the
"Previous status" section is appended exactly when the previous snapshot
is a non-empty (truthy) string, not merely when a prior entry existed.
-/
theorem c10_empty_previous_snapshot (pages : List (String × String))
    (fetched : String → List HtmlEvent) (prev : List (String × String))
    (name url : String)
    (h1 : ∀ pg ∈ pages, extract_status (fetched pg.2) ≠ "")
    (h2 : (pages.map Prod.fst).Nodup)
    (h3 : (name, url) ∈ pages)
    (h4 : List.lookup name prev = some "") :
    ((runMain pages fetched prev).notes.filter (fun nt => nt.name == name) =
        [{ name := name, old := "", new := extract_status (fetched url) }]) ∧
      notifyBody "" (extract_status (fetched url)) =
        "New status:\n" ++ extract_status (fetched url) ∧
      (∀ old new : String, old ≠ "" →
        notifyBody old new =
          "New status:\n" ++ new ++ "\n\nPrevious status:\n" ++ old) := by
  have hcur : extract_status (fetched url) ≠ "" := h1 (name, url) h3
  rw [runMain, runPages_ok fetched prev pages [] [] [] h1 (by simp) h2]
  refine ⟨?_, ?_, ?_⟩
  · simp only [List.nil_append]
    rw [filter_notes_flatten fetched prev pages name url h2 h3]
    dsimp only [expNotes]
    rw [h4]
    dsimp only [pageCur]
    rw [if_pos hcur]
  · dsimp only [notifyBody]
    rw [if_neg (fun hc => hc rfl)]
  · intro old new hne
    dsimp only [notifyBody]
    rw [if_pos hne]

theorem c10_witness :
    ((∀ pg ∈ ([("TCF", "u")] : List (String × String)),
        extract_status ((fun _ => [HtmlEvent.dataText ("Status: B")]) pg.2) ≠ "") ∧
      (([("TCF", "u")] : List (String × String)).map Prod.fst).Nodup ∧
      (("TCF", "u") : String × String) ∈ ([("TCF", "u")] : List (String × String)) ∧
      List.lookup "TCF" [("TCF", "")] = some "") ∧
    (((runMain [("TCF", "u")] (fun _ => [HtmlEvent.dataText ("Status: B")])
          [("TCF", "")]).notes.filter (fun nt => nt.name == "TCF") =
        [{ name := "TCF", old := "",
           new := extract_status
             ((fun _ => [HtmlEvent.dataText ("Status: B")]) "u") }]) ∧
      notifyBody ""
          (extract_status ((fun _ => [HtmlEvent.dataText ("Status: B")]) "u")) =
        "New status:\n" ++
          extract_status ((fun _ => [HtmlEvent.dataText ("Status: B")]) "u") ∧
      (∀ old new : String, old ≠ "" →
        notifyBody old new =
          "New status:\n" ++ new ++ "\n\nPrevious status:\n" ++ old)) :=
  ⟨⟨by decide, by decide, by decide, by decide⟩,
    c10_empty_previous_snapshot [("TCF", "u")]
      (fun _ => [HtmlEvent.dataText ("Status: B")]) [("TCF", "")]
      ("TCF") ("u") (by decide) (by decide) (by decide) (by decide)⟩

end CheckTcf
